import Mathlib

/-!
Verification of RobMeades/moths against its natural-language specification.

The development shallowly embeds the pure logic of the two pipelines:

* `moths_import.py`: the image-filename parser, the per-directory count
  reconciliation and validation, and the database writes of
  `ensure_trapping` / `add_instance_list` (the MySQL tables are modelled as
  in-memory lists; the `date` column of the `trapping` table is a unique key,
  per the SQL `INSERT ... ON DUPLICATE KEY UPDATE` in the source and the
  schema in the spec).
* `moths_export_html.py`: the "latest published page" resolver
  (`url_trapping_latest` / `date_from_path`), the navigation-patch regex
  substitution of `trappings_publish`, and the link-chain structure produced
  when several trappings are published in one run.

Strings are modelled as `List Char`; Python's `int()`, `str.split`,
`str.strip`, slicing and `re` behaviour are modelled character by character
(ASCII: the filenames and HTML fragments involved are ASCII).
-/

namespace Moths

/-- Python whitespace (`str.strip`, regex `\s`), restricted to ASCII. -/
def pyIsWs (c : Char) : Bool :=
  c = ' ' || c = '\t' || c = '\n' || c = '\x0d' || c = '\x0b' || c = '\x0c'

/-- Python `s.strip()`: remove leading and trailing whitespace. -/
def pyStrip (s : List Char) : List Char :=
  ((((s.dropWhile pyIsWs).reverse).dropWhile pyIsWs)).reverse

/-- Value of a string of decimal digits. -/
def digitsVal (s : List Char) : Nat :=
  s.foldl (fun a c => a * 10 + (c.toNat - 48)) 0

/-- Python `int(s)` for a nonempty all-digit string, else failure. -/
def pyDigits? (s : List Char) : Option Nat :=
  if s ≠ [] ∧ s.all Char.isDigit then some (digitsVal s) else none

/-- Model of Python `int(text)` on the underscore-free tokens produced by
`str.split('_')`: optional surrounding whitespace, an optional sign, then
one or more decimal digits.  (Python also allows underscores between
digits, but the tokens fed to `int` here never contain one.) -/
def pyInt? (s : List Char) : Option Int :=
  match pyStrip s with
  | [] => none
  | c :: rest =>
    if c = '-' then (pyDigits? rest).map (fun v => -(Int.ofNat v))
    else if c = '+' then (pyDigits? rest).map (fun v => Int.ofNat v)
    else (pyDigits? (c :: rest)).map (fun v => Int.ofNat v)

/-- Python `s.split(sep)` for a one-character separator: always returns at
least one (possibly empty) piece. -/
def pySplit (sep : Char) : List Char → List (List Char)
  | [] => [[]]
  | c :: cs =>
    if c = sep then [] :: pySplit sep cs
    else
      match pySplit sep cs with
      | [] => [[c]]
      | t :: ts => (c :: t) :: ts

/-- Python `s[:k]`, including the negative-index convention
(`s[:-n]` drops the last `n` characters, clamped at the start). -/
def pyTake (s : List Char) (k : Int) : List Char :=
  if k < 0 then s.take (s.length - (-k).toNat) else s.take k.toNat

/-- Python string `<=` (lexicographic by code point). -/
def strLe : List Char → List Char → Bool
  | [], _ => true
  | _ :: _, [] => false
  | a :: as, b :: bs =>
    if a.toNat < b.toNat then true
    else if b.toNat < a.toNat then false
    else strLe as bs

/-- One parsed image file: the fields `n`, `m` and `blah` that
`process_directory` stores in each `file_list` entry.  (`blah` is the
spec's `groupKey`, `m` its variant tag.)  The file path is identified by
the file name, which the importer's per-directory logic never revisits
after parsing, so it is not carried here. -/
structure FileListEntry where
  n : Int
  m : Option Char
  blah : List Char
deriving DecidableEq

/-- The `for text in reversed(file_name_parts)` loop of
`process_directory` (moths_import.py lines 215-232): walk the
underscore-separated tokens right to left; the first token `int()`
accepts is `n` (stop there); before it, at most one single alphabetic
token may be recorded as `m` (lower-cased); anything else stops the scan
without an `n`.  Returns `(n, m, len_prefix)` on success. -/
def scan_tokens : List (List Char) → Option Char → Int → Option (Int × Option Char × Int)
  | [], _, _ => none
  | t :: ts, m, lp =>
    match pyInt? t with
    | some k => some (k, m, lp - ((t.length : Int) + 1))
    | none =>
      match t, m with
      | [c], none =>
        if c.isAlpha then scan_tokens ts (some c.toLower) (lp - 2) else none
      | _, _ => none

/-- Parse one `.jpg` file name (extension already checked) into a
`FileListEntry`, as `process_directory` does: strip the 4-character
extension, split at `'_'`, scan the tokens backwards, and take
`file_name_no_ext[:len_prefix]` as `blah`.  `none` is the source's
"does not include a count" error for that file. -/
def parse_jpg_name (file_name : List Char) : Option FileListEntry :=
  match scan_tokens (pySplit '_' (pyTake file_name (-4))).reverse none
      (((pyTake file_name (-4)).length : Int)) with
  | some r => some ⟨r.1, r.2.1, pyTake (pyTake file_name (-4)) r.2.2⟩
  | none => none

/-- `file_name.lower().endswith('.jpg')` (moths_import.py line 206). -/
def isJpgName (file_name : List Char) : Bool :=
  decide (['.', 'j', 'p', 'g'] <:+ file_name.map Char.toLower)

/-- The per-directory scanning loop (moths_import.py lines 205-239):
walk the directory listing in order; names not ending in `.jpg`
(case-insensitively) are skipped outright; `.jpg` names are parsed,
successful parses are collected in listing order, failures increment
`files_in_error`. -/
def scan_dir : List (List Char) → List FileListEntry × Nat
  | [] => ([], 0)
  | name :: rest =>
    let r := scan_dir rest
    if isJpgName name then
      match parse_jpg_name name with
      | some e => (e :: r.1, r.2)
      | none => (r.1, r.2 + 1)
    else r

/-- CPython's `a is not b` as it behaves on the count values this
program compares (moths_import.py line 253): each count is produced by
its own `int(text)` call (or is the interned literal `-1` the loop
starts from), and CPython interns exactly the ints `-5`..`256`, so two
such objects are identical precisely when their values are equal and
lie in the interned range.  Equal counts outside `-5`..`256` are
distinct objects and compare `is not` → `True`. -/
def int_is_not (a b : Int) : Bool :=
  decide (¬ (a = b ∧ -5 ≤ a ∧ a ≤ 256))

/-- The consistency check of moths_import.py lines 248-262: walk the
sorted list with state `(n, blah)`; only entries carrying an `m` are
examined: if such an entry's `blah` equals the state's, its `n` is
compared against the state's `n` with `is not` (object identity,
modelled by `int_is_not`); otherwise the entry starts a new instance
and its `n` is recorded.  `false` is the "inconsistent value for n"
abort. -/
def check_counts : List FileListEntry → Int → List Char → Bool
  | [], _, _ => true
  | f :: rest, n, blah =>
    match f.m with
    | some _ =>
      if f.blah = blah then
        if int_is_not f.n n then false else check_counts rest n f.blah
      else check_counts rest f.n f.blah
    | none => check_counts rest n blah

/-- The effective counts written by `add_instance_list`
(moths_import.py lines 142-171): an entry whose `blah` equals the
previous entry's `blah` has its count zeroed. -/
def effective_counts : List FileListEntry → List Char → List Int
  | [], _ => []
  | f :: rest, blah_prev =>
    (if f.blah = blah_prev then 0 else f.n) :: effective_counts rest f.blah

/-- `file_list.sort(key=lambda x: x['blah'])` (line 244): Python's
`list.sort` is a stable sort by the key, modelled by stable insertion
sort under the key order. -/
def entR (a b : FileListEntry) : Prop := strLe a.blah b.blah = true

instance : DecidableRel entR := fun a b => by unfold entR; infer_instance

def sort_entries (l : List FileListEntry) : List FileListEntry :=
  List.insertionSort entR l

/-- The database state the importer writes to: the `trapping` table
(rows `(id, date)`; dates are encoded as `Nat`, e.g. `20250615`), the
auto-increment counter behind its `id` column, and the `instance` table
(rows `(trapping_id, count)`; the image blob plays no role in any
claim).  The `date` column of `trapping` is a unique key (spec section 6;
the source's `INSERT ... ON DUPLICATE KEY UPDATE` relies on it). -/
structure DB where
  trappings : List (Nat × Nat)
  next_trapping_id : Nat
  instances : List (Nat × Int)
deriving DecidableEq

def emptyDB : DB := ⟨[], 0, []⟩

/-- First trapping row with the given date, if any. -/
def trapping_find : List (Nat × Nat) → Nat → Option Nat
  | [], _ => none
  | r :: rest, d => if r.2 = d then some r.1 else trapping_find rest d

/-- `ensure_trapping` (moths_import.py lines 83-124): `INSERT` the date
with `ON DUPLICATE KEY UPDATE date = date` (a no-op when the
date-unique key already has a row), then `SELECT id ... WHERE date`.
Returns the new state and the id of the existing or inserted row. -/
def ensure_trapping (db : DB) (date : Nat) : DB × Nat :=
  match trapping_find db.trappings date with
  | some i => (db, i)
  | none =>
    (⟨db.trappings ++ [(db.next_trapping_id, date)], db.next_trapping_id + 1,
      db.instances⟩, db.next_trapping_id)

/-- `add_instance_list` (moths_import.py lines 126-177): one `INSERT`
into `instance` per entry of the sorted file list, in order, with the
count zeroed whenever the entry's `blah` equals the previous entry's. -/
def add_instance_list (db : DB) (tid : Nat) (file_list : List FileListEntry) : DB :=
  ⟨db.trappings, db.next_trapping_id,
   db.instances ++ (effective_counts file_list []).map (fun c => (tid, c))⟩

/-- The validation part of one date directory's
`process_directory` pass (moths_import.py lines 203-263): scan the
listing; if any `.jpg` failed to parse, the directory is empty of
`.jpg` files, or the sorted list fails the count-consistency check,
the directory is ignored (`none`); otherwise the sorted entry list is
handed to the database writes. -/
def import_entries? (names : List (List Char)) : Option (List FileListEntry) :=
  let s := scan_dir names
  if s.2 ≠ 0 then none
  else if s.1.isEmpty then none
  else
    let sorted := sort_entries s.1
    if check_counts sorted (-1) [] then some sorted else none

/-- One date directory's worth of `process_directory`
(moths_import.py lines 203-280, with `update_db=True` and the database
calls succeeding): on validation failure the database is untouched;
otherwise the trapping row is ensured for the date and one instance
row per file is added. -/
def run_import (db : DB) (date : Nat) (names : List (List Char)) : DB :=
  match import_entries? names with
  | none => db
  | some sorted =>
    let et := ensure_trapping db date
    add_instance_list et.1 et.2 sorted

/-- Modelled from the spec: the importer's maximum-image-file-size check
(spec sections 4.2 step 4, 6 and 8), which is absent from
src/moths_import.py (the script there has no `-s` option and never
inspects file sizes).  A configured maximum of `0` means unlimited;
otherwise, if any file in the directory is larger than the maximum, the
whole directory is aborted before any database write. -/
def run_import_limited (max_size : Nat) (db : DB) (date : Nat)
    (files : List (List Char × Nat)) : DB :=
  if max_size ≠ 0 ∧ files.any (fun f => max_size < f.2) then db
  else run_import db date (files.map Prod.fst)

/-! ## Export side (`moths_export_html.py`) -/

/-- Two ASCII digits to a number. -/
def digit2 (a b : Char) : Option Nat :=
  if a.isDigit ∧ b.isDigit then some ((a.toNat - 48) * 10 + (b.toNat - 48)) else none

/-- `strptime`'s `%y` pivot: `00`-`68` mean 2000-2068, `69`-`99` mean
1969-1999. -/
def yearPivot (yy : Nat) : Nat := if yy ≤ 68 then 2000 + yy else 1900 + yy

def isLeap (y : Nat) : Bool := y % 4 = 0 ∧ (y % 100 ≠ 0 ∨ y % 400 = 0)

def daysInMonth (y m : Nat) : Nat :=
  if m = 2 then (if isLeap y then 29 else 28)
  else if m = 4 ∨ m = 6 ∨ m = 9 ∨ m = 11 then 30
  else 31

/-- `datetime.strptime(frag, '%d-%m-%y')` on an 8-character `DD-MM-YY`
fragment, encoded as the number `year * 10000 + month * 100 + day` so
that the numeric order on codes is exactly the chronological order.
`none` models the `ValueError` on anything that is not a valid date. -/
def date_code? : List Char → Option Nat
  | [d1, d2, '-', m1, m2, '-', y1, y2] =>
    match digit2 d1 d2, digit2 m1 m2, digit2 y1 y2 with
    | some dd, some mm, some yy =>
      let y := yearPivot yy
      if 1 ≤ mm ∧ mm ≤ 12 ∧ 1 ≤ dd ∧ dd ≤ daysInMonth y mm then
        some (y * 10000 + mm * 100 + dd)
      else none
    | _, _, _ => none
  | _ => none

/-- `date_from_path` (moths_export_html.py lines 59-64): parse
`path[-13:-5]`, the `DD-MM-YY` fragment of a path ending in
`DD-MM-YY.html`, as a date. -/
def date_from_path (path : List Char) : Option Nat :=
  date_code? ((path.drop (path.length - 13)).take 8)

/-- The sort key `date_from_path` used on the candidate page paths; the
source would raise on an unparsable path, so the theorems assume every
candidate parses and the default never surfaces. -/
def pathKey (path : List Char) : Nat := (date_from_path path).getD 0

def pathLe (a b : List Char) : Prop := pathKey a ≤ pathKey b

instance : DecidableRel pathLe := fun a b => by unfold pathLe; infer_instance

instance : IsTotal (List Char) pathLe :=
  ⟨fun a b => Nat.le_total (pathKey a) (pathKey b)⟩

instance : IsTrans (List Char) pathLe :=
  ⟨fun _ _ _ h1 h2 => Nat.le_trans h1 h2⟩

/-- `urljoin(base_url, match + match[:-1] + '.html')` for a relative
`match` against a base URL ending in `/`: plain concatenation. -/
def url_for (base m : List Char) : List Char :=
  base ++ m ++ m.dropLast ++ ('.' :: 'h' :: 't' :: 'm' :: 'l' :: [])

/-- `url_trapping_latest` (moths_export_html.py lines 66-109), from the
point where the regex has produced the list of directory hyperlink
targets `ms` (each of the form `moths_DD-MM-YY/`): build
`<dir>/<dir>.html` page URLs, sort them by their `DD-MM-YY` date, and
return the last, or `None` when there is no match. -/
def url_trapping_latest (base : List Char) (ms : List (List Char)) :
    Option (List Char) :=
  (List.insertionSort pathLe (ms.map (url_for base))).getLast?

/-- The trapping dates the exporter works from
(`trappings_db_get_data`, moths_export_html.py lines 144-157): the
query `SELECT ... WHERE date > %s ORDER BY date DESC` over the trapping
table, i.e. the dates after `date_from` sorted newest first. -/
def trappings_after (all_dates : List Nat) (date_from : Nat) : List Nat :=
  List.insertionSort (fun a b => b ≤ a) (all_dates.filter (fun d => date_from < d))

/-- The navigation links produced by the `for trapping in trapping_list`
loop of `trappings_publish` (moths_export_html.py lines 329-407),
abstracted to dates: pages are identified by their trapping date,
`prev` is the date of `file_path_previous` (initially the last
published page).  For each trapping in list order the loop first
patches the previous page with a forward link to this trapping's page,
then creates this trapping's page with a back link to the previous
date, then makes this page the previous one.  Returns
(back links `(new page, its back target)`,
 forward patches `(patched page, its forward target)`), in order. -/
def publish_chain : Nat → List Nat → List (Nat × Nat) × List (Nat × Nat)
  | _, [] => ([], [])
  | prev, d :: rest =>
    let r := publish_chain d rest
    ((d, prev) :: r.1, (prev, d) :: r.2)

/-- Shorthand for string literals as character lists. -/
def str (s : String) : List Char := s.toList

/-- Consume an exact literal, returning the remainder. -/
def lit : List Char → List Char → Option (List Char)
  | [], s => some s
  | p :: ps, s =>
    match s with
    | [] => none
    | c :: cs => if p = c then lit ps cs else none

/-- The `forward_to` replacement text built by `trappings_publish`
(moths_export_html.py line 339) from the new page's directory/file name
and its long-form date. -/
def forward_to (name date_long : List Char) : List Char :=
  str "Forward to <a href=\"../" ++ name ++ str "/" ++ name ++
    str ".html\">" ++ date_long ++ str "</a> moth page, b"

/-- One attempted match, at the start of `s`, of the pattern of
moths_export_html.py line 343,
`(<i>\s*)B(ack to <a\s+href=\s*"[^"]+"\s*>[^<]+</a> moth page)`.
Every greedy repetition in that pattern (`\s*`, `\s+`, `[^"]+`, `[^<]+`)
is followed by a literal character excluded from the repeated class, so
Python's backtracking matcher is equivalent to this straight-line
greedy scan.  On success returns the two capture groups and the
remainder after the match. -/
def matchNav (s : List Char) : Option (List Char × List Char × List Char) :=
  match lit (str "<i>") s with
  | none => none
  | some s1 =>
    let w := s1.takeWhile pyIsWs
    match lit (str "B") (s1.dropWhile pyIsWs) with
    | none => none
    | some s2 =>
      match lit (str "ack to <a") s2 with
      | none => none
      | some s3 =>
        let w1 := s3.takeWhile pyIsWs
        if w1.isEmpty then none
        else
          match lit (str "href=") (s3.dropWhile pyIsWs) with
          | none => none
          | some s5 =>
            let w2 := s5.takeWhile pyIsWs
            match lit (str "\"") (s5.dropWhile pyIsWs) with
            | none => none
            | some s7 =>
              let x := s7.takeWhile (fun c => c ≠ '"')
              if x.isEmpty then none
              else
                match lit (str "\"") (s7.dropWhile (fun c => c ≠ '"')) with
                | none => none
                | some s9 =>
                  let w3 := s9.takeWhile pyIsWs
                  match lit (str ">") (s9.dropWhile pyIsWs) with
                  | none => none
                  | some s11 =>
                    let y := s11.takeWhile (fun c => c ≠ '<')
                    if y.isEmpty then none
                    else
                      match lit (str "</a> moth page") (s11.dropWhile (fun c => c ≠ '<')) with
                      | none => none
                      | some rest =>
                        some (str "<i>" ++ w,
                              str "ack to <a" ++ w1 ++ str "href=" ++ w2 ++
                                '"' :: x ++ '"' :: w3 ++ '>' :: y ++ str "</a> moth page",
                              rest)

/-- `re.sub(pattern, '\\1' + forward_to + '\\2', file_contents, count=1)`
(moths_export_html.py lines 343-345): replace the leftmost match of the
pattern, substituting the matched `B` by `fwd`; everything else is kept
verbatim.  (The `re.MULTILINE` flag only affects `^`/`$`, which the
pattern does not use.) -/
def subNav (fwd : List Char) : List Char → List Char
  | [] => []
  | c :: cs =>
    match matchNav (c :: cs) with
    | some r => r.1 ++ fwd ++ r.2.1 ++ r.2.2
    | none => c :: subNav fwd cs

/-- The claim's "back" navigation fragment
`<i> Back to <a href="x">Y</a> moth page`. -/
def back_fragment (x y : List Char) : List Char :=
  str "<i> Back to <a href=\"" ++ x ++ str "\">" ++ y ++ str "</a> moth page"

/-- The claim's patched fragment `<i> Forward to <a href="new">Z</a>
moth page, back to <a href="x">Y</a> moth page`, with `new` and `Z`
spelled out as the source builds them. -/
def patched_fragment (name date_long x y : List Char) : List Char :=
  str "<i> Forward to <a href=\"../" ++ name ++ str "/" ++ name ++
    str ".html\">" ++ date_long ++ str "</a> moth page, back to <a href=\"" ++
    x ++ str "\">" ++ y ++ str "</a> moth page"

/-! ## Supporting lemmas -/

theorem ule_toNat {a b : UInt32} (h : a ≤ b) : a.toNat ≤ b.toNat := h

theorem isAlpha_ranges {c : Char} (h : c.isAlpha = true) :
    (65 ≤ c.toNat ∧ c.toNat ≤ 90) ∨ (97 ≤ c.toNat ∧ c.toNat ≤ 122) := by
  simp only [Char.isAlpha, Char.isUpper, Char.isLower, Bool.or_eq_true, Bool.and_eq_true,
    decide_eq_true_eq, ge_iff_le] at h
  have e1 : ((65 : UInt32)).toNat = 65 := rfl
  have e2 : ((90 : UInt32)).toNat = 90 := rfl
  have e3 : ((97 : UInt32)).toNat = 97 := rfl
  have e4 : ((122 : UInt32)).toNat = 122 := rfl
  rcases h with ⟨h1, h2⟩ | ⟨h1, h2⟩
  · exact Or.inl ⟨e1 ▸ ule_toNat h1, e2 ▸ ule_toNat h2⟩
  · exact Or.inr ⟨e3 ▸ ule_toNat h1, e4 ▸ ule_toNat h2⟩

theorem isAlpha_not_digit {c : Char} (h : c.isAlpha = true) : c.isDigit = false := by
  by_contra hd
  rw [Bool.not_eq_false] at hd
  simp only [Char.isDigit, Bool.and_eq_true, decide_eq_true_eq, ge_iff_le] at hd
  have e1 : ((48 : UInt32)).toNat = 48 := rfl
  have e2 : ((57 : UInt32)).toNat = 57 := rfl
  have h1 := e1 ▸ ule_toNat hd.1
  have h2 := e2 ▸ ule_toNat hd.2
  have e0 : c.val.toNat = c.toNat := rfl
  rw [e0] at h1 h2
  rcases isAlpha_ranges h with ⟨h3, _⟩ | ⟨h3, _⟩ <;> omega

theorem ws_cases {c : Char} (h : pyIsWs c = true) :
    c = ' ' ∨ c = '\t' ∨ c = '\n' ∨ c = '\x0d' ∨ c = '\x0b' ∨ c = '\x0c' := by
  unfold pyIsWs at h
  simp only [Bool.or_eq_true, decide_eq_true_eq] at h
  tauto

theorem isAlpha_not_ws {c : Char} (h : c.isAlpha = true) : pyIsWs c = false := by
  by_contra hw
  rw [Bool.not_eq_false] at hw
  rcases ws_cases hw with h1 | h1 | h1 | h1 | h1 | h1 <;> subst h1 <;> exact absurd h (by decide)

theorem isAlpha_char_facts {c : Char} (h : c.isAlpha = true) :
    c ≠ '_' ∧ c ≠ '-' ∧ c ≠ '+' := by
  refine ⟨?_, ?_, ?_⟩ <;> (rintro rfl; exact absurd h (by decide))

theorem pySplit_ne_nil (sep : Char) (s : List Char) : pySplit sep s ≠ [] := by
  cases s with
  | nil => simp [pySplit]
  | cons c cs =>
    unfold pySplit
    by_cases h : c = sep
    · simp [h]
    · rw [if_neg h]
      cases pySplit sep cs <;> simp

theorem pySplit_cons (sep a : Char) (as : List Char) :
    pySplit sep (a :: as) =
      if a = sep then [] :: pySplit sep as
      else
        match pySplit sep as with
        | [] => [[a]]
        | t :: ts => (a :: t) :: ts := rfl

theorem pySplit_append (sep : Char) (a b : List Char) :
    pySplit sep (a ++ sep :: b) = pySplit sep a ++ pySplit sep b := by
  induction a with
  | nil => simp [pySplit]
  | cons c cs ih =>
    by_cases h : c = sep
    · subst h
      rw [List.cons_append, pySplit_cons, if_pos rfl, ih, pySplit_cons, if_pos rfl]
      rfl
    · cases h2 : pySplit sep cs with
      | nil => exact absurd h2 (pySplit_ne_nil sep cs)
      | cons t ts =>
        rw [List.cons_append, pySplit_cons, if_neg h, ih, h2, List.cons_append,
          pySplit_cons, if_neg h, h2]
        rfl

theorem pySplit_no_sep (sep : Char) (s : List Char) (h : sep ∉ s) : pySplit sep s = [s] := by
  induction s with
  | nil => rfl
  | cons c cs ih =>
    rw [List.mem_cons, not_or] at h
    unfold pySplit
    rw [if_neg (fun he => h.1 he.symm), ih h.2]

theorem pySplit_subset {sep : Char} {t s : List Char} (h : t ∈ pySplit sep s) :
    ∀ c ∈ t, c ∈ s := by
  induction s generalizing t with
  | nil =>
    simp [pySplit] at h
    subst h
    intro c hc
    cases hc
  | cons a as ih =>
    unfold pySplit at h
    by_cases ha : a = sep
    · rw [if_pos ha] at h
      rcases List.mem_cons.1 h with h1 | h1
      · subst h1
        intro c hc
        cases hc
      · exact fun c hc => List.mem_cons_of_mem _ (ih h1 c hc)
    · rw [if_neg ha] at h
      cases hsp : pySplit sep as with
      | nil => exact absurd hsp (pySplit_ne_nil sep as)
      | cons t0 ts0 =>
        rw [hsp] at h
        have ht0 : t0 ∈ pySplit sep as := by
          rw [hsp]
          exact List.mem_cons_self t0 ts0
        rcases List.mem_cons.1 h with h1 | h1
        · subst h1
          intro c hc
          rcases List.mem_cons.1 hc with h2 | h2
          · exact h2 ▸ List.mem_cons_self a as
          · exact List.mem_cons_of_mem _ (ih ht0 c h2)
        · intro c hc
          have h3 : t ∈ pySplit sep as := by
            rw [hsp]
            exact List.mem_cons_of_mem t0 h1
          exact List.mem_cons_of_mem _ (ih h3 c hc)

theorem mem_dropWhile_of_not {p : Char → Bool} {c : Char} {l : List Char}
    (h : c ∈ l) (hc : ¬ p c = true) : c ∈ l.dropWhile p := by
  have hsplit : c ∈ l.takeWhile p ++ l.dropWhile p := by
    rw [List.takeWhile_append_dropWhile]
    exact h
  rcases List.mem_append.1 hsplit with h2 | h2
  · exact absurd (List.mem_takeWhile_imp h2) hc
  · exact h2

theorem mem_of_mem_pyStrip {c : Char} {s : List Char} (h : c ∈ pyStrip s) : c ∈ s := by
  unfold pyStrip at h
  rw [List.mem_reverse] at h
  have h2 := (List.dropWhile_sublist _).subset h
  rw [List.mem_reverse] at h2
  exact (List.dropWhile_sublist _).subset h2

theorem mem_pyStrip_of_not_ws {c : Char} {s : List Char} (h : c ∈ s)
    (hw : ¬ pyIsWs c = true) : c ∈ pyStrip s := by
  unfold pyStrip
  rw [List.mem_reverse]
  refine mem_dropWhile_of_not ?_ hw
  rw [List.mem_reverse]
  exact mem_dropWhile_of_not h hw

theorem pyDigits?_some {s : List Char} {v : Nat} (h : pyDigits? s = some v) :
    s ≠ [] ∧ ∀ c ∈ s, c.isDigit = true := by
  unfold pyDigits? at h
  by_cases hc : s ≠ [] ∧ s.all Char.isDigit
  · exact ⟨hc.1, fun c hm => List.all_eq_true.1 hc.2 c hm⟩
  · rw [if_neg hc] at h
    cases h

theorem pyInt?_eq_nil {s : List Char} (hst : pyStrip s = []) : pyInt? s = none := by
  unfold pyInt?
  rw [hst]

theorem pyInt?_eq_cons {s : List Char} {hd : Char} {tl : List Char}
    (hst : pyStrip s = hd :: tl) :
    pyInt? s =
      if hd = '-' then (pyDigits? tl).map (fun v => -(Int.ofNat v))
      else if hd = '+' then (pyDigits? tl).map (fun v => Int.ofNat v)
      else (pyDigits? (hd :: tl)).map (fun v => Int.ofNat v) := by
  unfold pyInt?
  rw [hst]

theorem pyInt?_chars {s : List Char} {k : Int} (h : pyInt? s = some k) :
    ∀ c ∈ s, pyIsWs c = true ∨ c = '-' ∨ c = '+' ∨ c.isDigit = true := by
  intro c hc
  by_cases hw : pyIsWs c = true
  · exact Or.inl hw
  have hcs : c ∈ pyStrip s := mem_pyStrip_of_not_ws hc hw
  cases hst : pyStrip s with
  | nil =>
    rw [hst] at hcs
    cases hcs
  | cons hd tl =>
    rw [pyInt?_eq_cons hst] at h
    rw [hst] at hcs
    by_cases h1 : hd = '-'
    · rw [if_pos h1] at h
      obtain ⟨v, hv, _⟩ := Option.map_eq_some'.1 h
      rcases List.mem_cons.1 hcs with h2 | h2
      · exact Or.inr (Or.inl (h2.trans h1))
      · exact Or.inr (Or.inr (Or.inr ((pyDigits?_some hv).2 c h2)))
    · rw [if_neg h1] at h
      by_cases h2 : hd = '+'
      · rw [if_pos h2] at h
        obtain ⟨v, hv, _⟩ := Option.map_eq_some'.1 h
        rcases List.mem_cons.1 hcs with h3 | h3
        · exact Or.inr (Or.inr (Or.inl (h3.trans h2)))
        · exact Or.inr (Or.inr (Or.inr ((pyDigits?_some hv).2 c h3)))
      · rw [if_neg h2] at h
        obtain ⟨v, hv, _⟩ := Option.map_eq_some'.1 h
        exact Or.inr (Or.inr (Or.inr ((pyDigits?_some hv).2 c hcs)))

theorem pyInt?_no_underscore {s : List Char} {k : Int} (h : pyInt? s = some k) :
    ('_') ∉ s := by
  intro hm
  rcases pyInt?_chars h _ hm with h1 | h1 | h1 | h1 <;> exact absurd h1 (by decide)

theorem pyInt?_nonneg {s : List Char} {k : Int} (h : pyInt? s = some k)
    (hm : ('-') ∉ s) : 0 ≤ k := by
  cases hst : pyStrip s with
  | nil =>
    rw [pyInt?_eq_nil hst] at h
    cases h
  | cons hd tl =>
    rw [pyInt?_eq_cons hst] at h
    by_cases h1 : hd = '-'
    · refine absurd (mem_of_mem_pyStrip (s := s) ?_) hm
      rw [hst, ← h1]
      exact List.mem_cons_self hd tl
    · rw [if_neg h1] at h
      by_cases h2 : hd = '+'
      · rw [if_pos h2] at h
        obtain ⟨v, _, he⟩ := Option.map_eq_some'.1 h
        rw [← he]
        exact Int.natCast_nonneg v
      · rw [if_neg h2] at h
        obtain ⟨v, _, he⟩ := Option.map_eq_some'.1 h
        rw [← he]
        exact Int.natCast_nonneg v

theorem alpha_pyInt_none {c : Char} (hc : c.isAlpha = true) : pyInt? [c] = none := by
  have hw := isAlpha_not_ws hc
  have hst : pyStrip [c] = [c] := by
    unfold pyStrip
    simp [List.dropWhile_cons, hw]
  obtain ⟨_, h2, h3⟩ := isAlpha_char_facts hc
  rw [pyInt?_eq_cons hst, if_neg h2, if_neg h3]
  simp [pyDigits?, isAlpha_not_digit hc]

theorem scan_tokens_nil (m : Option Char) (lp : Int) : scan_tokens [] m lp = none := rfl

theorem scan_tokens_cons (t : List Char) (ts : List (List Char)) (m : Option Char)
    (lp : Int) :
    scan_tokens (t :: ts) m lp =
      match pyInt? t with
      | some k => some (k, m, lp - ((t.length : Int) + 1))
      | none =>
        match t, m with
        | [c], none =>
          if c.isAlpha then scan_tokens ts (some c.toLower) (lp - 2) else none
        | _, _ => none := rfl

theorem scan_tokens_int {t : List Char} {ts : List (List Char)} {m : Option Char}
    {lp : Int} {k : Int} (h : pyInt? t = some k) :
    scan_tokens (t :: ts) m lp = some (k, m, lp - ((t.length : Int) + 1)) := by
  rw [scan_tokens_cons, h]

theorem scan_tokens_alpha {c : Char} {ts : List (List Char)} {lp : Int}
    (hc : c.isAlpha = true) :
    scan_tokens ([c] :: ts) none lp = scan_tokens ts (some c.toLower) (lp - 2) := by
  rw [scan_tokens_cons, alpha_pyInt_none hc]
  simp [hc]

theorem scan_tokens_src {ts : List (List Char)} {m0 : Option Char} {lp0 : Int}
    {k : Int} {m : Option Char} {lp : Int}
    (h : scan_tokens ts m0 lp0 = some (k, m, lp)) : ∃ t ∈ ts, pyInt? t = some k := by
  induction ts generalizing m0 lp0 with
  | nil =>
    rw [scan_tokens_nil] at h
    exact Option.noConfusion h
  | cons t ts ih =>
    rw [scan_tokens_cons] at h
    cases hI : pyInt? t with
    | some k2 =>
      rw [hI] at h
      obtain ⟨he, _, _⟩ := Prod.mk.injEq .. ▸ Option.some_inj.1 h
      exact ⟨t, List.mem_cons_self t ts, by rw [hI, he]⟩
    | none =>
      rw [hI] at h
      cases t with
      | nil => exact Option.noConfusion h
      | cons c t2 =>
        cases t2 with
        | cons d t3 => exact Option.noConfusion h
        | nil =>
          cases m0 with
          | some _ => exact Option.noConfusion h
          | none =>
            dsimp only at h
            by_cases hc : c.isAlpha
            · rw [if_pos hc] at h
              obtain ⟨t4, ht4, hi4⟩ := ih h
              exact ⟨t4, List.mem_cons_of_mem _ ht4, hi4⟩
            · rw [if_neg hc] at h
              exact Option.noConfusion h

theorem pyTake_ext (a : List Char) : pyTake (a ++ str ".jpg") (-4) = a := by
  unfold pyTake
  rw [if_pos (by decide)]
  have hl : (a ++ str ".jpg").length = a.length + 4 := by simp [str]
  rw [hl]
  have h4 : (-(-4 : Int)).toNat = 4 := by decide
  rw [h4, Nat.add_sub_cancel]
  exact List.take_left a (str ".jpg")

theorem pyTake_len_left (a b : List Char) : pyTake (a ++ b) ((a.length : Int)) = a := by
  unfold pyTake
  rw [if_neg (by exact not_lt.2 (Int.natCast_nonneg a.length)), Int.toNat_natCast]
  exact List.take_left a b

theorem pyTake_subset (s : List Char) (k : Int) : ∀ c ∈ pyTake s k, c ∈ s := by
  intro c hc
  unfold pyTake at hc
  split at hc
  · exact (List.take_sublist _ _).subset hc
  · exact (List.take_sublist _ _).subset hc

theorem parse_jpg_name_eq (fn : List Char) :
    parse_jpg_name fn =
      match scan_tokens (pySplit '_' (pyTake fn (-4))).reverse none
          (((pyTake fn (-4)).length : Int)) with
      | some r => some ⟨r.1, r.2.1, pyTake (pyTake fn (-4)) r.2.2⟩
      | none => none := rfl

theorem parse_plain (pfx t : List Char) (k : Int) (ht : pyInt? t = some k) :
    parse_jpg_name (pfx ++ '_' :: (t ++ str ".jpg")) = some ⟨k, none, pfx⟩ := by
  have hns : pfx ++ '_' :: (t ++ str ".jpg") = (pfx ++ '_' :: t) ++ str ".jpg" := by
    simp
  have hsplit : pySplit '_' (pfx ++ '_' :: t) = pySplit '_' pfx ++ [t] := by
    rw [pySplit_append, pySplit_no_sep '_' t (pyInt?_no_underscore ht)]
  have hrev : (pySplit '_' pfx ++ [t]).reverse = t :: (pySplit '_' pfx).reverse := by
    simp
  rw [parse_jpg_name_eq, hns, pyTake_ext, hsplit, hrev, scan_tokens_int ht]
  dsimp only
  have hlp : (((pfx ++ '_' :: t).length : Nat) : Int) - ((t.length : Int) + 1) =
      ((pfx.length : Nat) : Int) := by
    push_cast [List.length_append, List.length_cons]
    ring
  rw [hlp, pyTake_len_left]

theorem parse_variant (pfx t : List Char) (k : Int) (c : Char)
    (ht : pyInt? t = some k) (hc : c.isAlpha = true) :
    parse_jpg_name (pfx ++ '_' :: (t ++ '_' :: c :: str ".jpg")) =
      some ⟨k, some c.toLower, pfx⟩ := by
  obtain ⟨hu, _, _⟩ := isAlpha_char_facts hc
  have hns : pfx ++ '_' :: (t ++ '_' :: c :: str ".jpg") =
      (pfx ++ '_' :: (t ++ '_' :: [c])) ++ str ".jpg" := by
    simp
  have hsp3 : pySplit '_' [c] = [[c]] := by
    refine pySplit_no_sep '_' [c] ?_
    intro hm
    rw [List.mem_singleton] at hm
    exact hu hm.symm
  have hsp1 : pySplit '_' (pfx ++ '_' :: (t ++ '_' :: [c])) =
      pySplit '_' pfx ++ ([t] ++ [[c]]) := by
    rw [pySplit_append, pySplit_append,
      pySplit_no_sep '_' t (pyInt?_no_underscore ht), hsp3]
  have hrev : (pySplit '_' pfx ++ ([t] ++ [[c]])).reverse =
      [c] :: t :: (pySplit '_' pfx).reverse := by
    simp
  rw [parse_jpg_name_eq, hns, pyTake_ext, hsp1, hrev, scan_tokens_alpha hc,
    scan_tokens_int ht]
  dsimp only
  have hlp : ((((pfx ++ '_' :: (t ++ '_' :: [c])).length : Nat) : Int) - 2) -
      ((t.length : Int) + 1) = ((pfx.length : Nat) : Int) := by
    push_cast [List.length_append, List.length_cons, List.length_nil]
    ring
  rw [hlp, pyTake_len_left]

theorem isJpgName_append (a : List Char) : isJpgName (a ++ str ".jpg") = true := by
  unfold isJpgName
  rw [decide_eq_true_eq]
  refine ⟨a.map Char.toLower, ?_⟩
  rw [List.map_append]
  have hmap : (str ".jpg").map Char.toLower = str ".jpg" := by decide
  rw [hmap]
  rfl

theorem strLe_cons (a b : Char) (as bs : List Char) :
    strLe (a :: as) (b :: bs) =
      if a.toNat < b.toNat then true
      else if b.toNat < a.toNat then false
      else strLe as bs := rfl

theorem strLe_total (a : List Char) : ∀ b, strLe a b = true ∨ strLe b a = true := by
  induction a with
  | nil => exact fun b => Or.inl rfl
  | cons x xs ih =>
    intro b
    cases b with
    | nil => exact Or.inr rfl
    | cons y ys =>
      rw [strLe_cons, strLe_cons]
      by_cases hxy : x.toNat < y.toNat
      · left
        rw [if_pos hxy]
      · by_cases hyx : y.toNat < x.toNat
        · right
          rw [if_pos hyx]
        · rw [if_neg hxy, if_neg hyx, if_neg hyx, if_neg hxy]
          exact ih ys

theorem strLe_trans {a : List Char} : ∀ {b c : List Char},
    strLe a b = true → strLe b c = true → strLe a c = true := by
  induction a with
  | nil => intro b c _ _; rfl
  | cons x xs ih =>
    intro b c h1 h2
    cases b with
    | nil => exact absurd h1 (by simp [strLe])
    | cons y ys =>
      cases c with
      | nil => exact absurd h2 (by simp [strLe])
      | cons z zs =>
        rw [strLe_cons] at h1 h2 ⊢
        by_cases hxy : x.toNat < y.toNat
        · by_cases hyz : y.toNat < z.toNat
          · rw [if_pos (by omega)]
          · rw [if_neg hyz] at h2
            by_cases hzy : z.toNat < y.toNat
            · rw [if_pos hzy] at h2
              exact absurd h2 (by simp)
            · rw [if_pos (by omega)]
        · rw [if_neg hxy] at h1
          by_cases hyx : y.toNat < x.toNat
          · rw [if_pos hyx] at h1
            exact absurd h1 (by simp)
          · rw [if_neg hyx] at h1
            by_cases hyz : y.toNat < z.toNat
            · rw [if_pos (by omega)]
            · rw [if_neg hyz] at h2
              by_cases hzy : z.toNat < y.toNat
              · rw [if_pos hzy] at h2
                exact absurd h2 (by simp)
              · rw [if_neg hzy] at h2
                rw [if_neg (by omega), if_neg (by omega)]
                exact ih h1 h2

theorem char_toNat_inj {x y : Char} (h : x.toNat = y.toNat) : x = y := by
  have hv : x.val = y.val := by
    have h2 : x.val.toNat = y.val.toNat := h
    exact UInt32.toNat.inj h2
  exact Char.ext hv

theorem strLe_antisymm : ∀ {a b : List Char},
    strLe a b = true → strLe b a = true → a = b := by
  intro a
  induction a with
  | nil =>
    intro b h1 h2
    cases b with
    | nil => rfl
    | cons y ys => exact absurd h2 (by simp [strLe])
  | cons x xs ih =>
    intro b h1 h2
    cases b with
    | nil => exact absurd h1 (by simp [strLe])
    | cons y ys =>
      rw [strLe_cons] at h1 h2
      by_cases hxy : x.toNat < y.toNat
      · rw [if_neg (by omega), if_pos hxy] at h2
        exact absurd h2 (by simp)
      · by_cases hyx : y.toNat < x.toNat
        · rw [if_neg hxy, if_pos hyx] at h1
          exact absurd h1 (by simp)
        · rw [if_neg hxy, if_neg hyx] at h1
          rw [if_neg hyx, if_neg hxy] at h2
          rw [char_toNat_inj (by omega : x.toNat = y.toNat), ih h1 h2]

instance : IsTotal FileListEntry entR :=
  ⟨fun a b => by
    unfold entR
    rcases strLe_total a.blah b.blah with h | h
    · exact Or.inl h
    · exact Or.inr h⟩

instance : IsTrans FileListEntry entR :=
  ⟨fun _ _ _ h1 h2 => strLe_trans h1 h2⟩

theorem trapping_find_append_self (l : List (Nat × Nat)) (n d : Nat)
    (h : trapping_find l d = none) : trapping_find (l ++ [(n, d)]) d = some n := by
  induction l with
  | nil => simp [trapping_find]
  | cons r rest ih =>
    rw [List.cons_append]
    unfold trapping_find at h ⊢
    by_cases hr : r.2 = d
    · rw [if_pos hr] at h
      simp at h
    · rw [if_neg hr] at h ⊢
      exact ih h

theorem ensure_trapping_instances (db : DB) (d : Nat) :
    (ensure_trapping db d).1.instances = db.instances := by
  unfold ensure_trapping
  cases trapping_find db.trappings d <;> rfl

theorem ensure_trapping_find (db : DB) (d : Nat) :
    trapping_find (ensure_trapping db d).1.trappings d = some (ensure_trapping db d).2 := by
  unfold ensure_trapping
  cases h : trapping_find db.trappings d with
  | some i => simpa using h
  | none => simpa using trapping_find_append_self _ _ _ h

theorem ensure_trapping_of_find (db : DB) (d i : Nat)
    (h : trapping_find db.trappings d = some i) : ensure_trapping db d = (db, i) := by
  unfold ensure_trapping
  rw [h]

theorem int_is_not_eq_false {a b : Int} (h : int_is_not a b = false) :
    a = b ∧ -5 ≤ a ∧ a ≤ 256 := by
  unfold int_is_not at h
  simpa using h

theorem int_is_not_eq_false_of {a b : Int} (he : a = b) (h1 : -5 ≤ a) (h2 : a ≤ 256) :
    int_is_not a b = false := by
  subst he
  unfold int_is_not
  simp [h1, h2]

theorem check_counts_cons (f : FileListEntry) (rest : List FileListEntry)
    (n : Int) (blah : List Char) :
    check_counts (f :: rest) n blah =
      match f.m with
      | some _ =>
        if f.blah = blah then
          if int_is_not f.n n then false else check_counts rest n f.blah
        else check_counts rest f.n f.blah
      | none => check_counts rest n blah := rfl

/-- The consistency check looks only at the entries that carry a
variant tag: dropping the untagged ones changes nothing. -/
theorem check_counts_filter (l : List FileListEntry) :
    ∀ (n : Int) (blah : List Char),
    check_counts l n blah = check_counts (l.filter (fun f => f.m.isSome)) n blah := by
  induction l with
  | nil => intro n blah; rfl
  | cons f rest ih =>
    intro n blah
    rw [check_counts_cons, List.filter_cons]
    cases hm : f.m with
    | none =>
      dsimp only
      rw [if_neg (by simp : ¬(none : Option Char).isSome = true)]
      exact ih n blah
    | some mv =>
      dsimp only
      simp only [Option.isSome_some, eq_self_iff_true, if_true]
      rw [check_counts_cons, hm]
      dsimp only
      split_ifs
      · rfl
      · exact ih n f.blah
      · exact ih f.n f.blah

/-- If the consistency check passes over a `blah`-sorted list of
tagged entries starting from state `(n, b)` — where `b` lower-bounds
every entry's `blah` — then every entry whose `blah` equals `b` has
count `n`, and any two entries sharing a `blah` have equal counts. -/
theorem check_pass_mono (M : List FileListEntry) :
    ∀ (n : Int) (b : List Char),
    (∀ f ∈ M, f.m.isSome = true) →
    M.Pairwise entR →
    (∀ f ∈ M, strLe b f.blah = true) →
    check_counts M n b = true →
    (∀ f ∈ M, f.blah = b → f.n = n) ∧
    (∀ e ∈ M, ∀ f ∈ M, e.blah = f.blah → e.n = f.n) := by
  induction M with
  | nil =>
    intro n b _ _ _ _
    exact ⟨fun f hf => absurd hf (List.not_mem_nil f),
      fun e he => absurd he (List.not_mem_nil e)⟩
  | cons g M ih =>
    intro n b hm hp hb hc
    rw [check_counts_cons] at hc
    cases hg : g.m with
    | none =>
      have h2 := hm g (List.mem_cons_self g M)
      rw [hg] at h2
      exact absurd h2 (by simp)
    | some mv =>
      rw [hg] at hc
      dsimp only at hc
      have hPW := List.pairwise_cons.1 hp
      have hm2 : ∀ f ∈ M, f.m.isSome = true := fun f hf => hm f (List.mem_cons_of_mem g hf)
      have hb2 : ∀ f ∈ M, strLe g.blah f.blah = true := fun f hf => hPW.1 f hf
      by_cases heq : g.blah = b
      · rw [if_pos heq] at hc
        by_cases hni : int_is_not g.n n = true
        · rw [if_pos hni] at hc
          exact absurd hc (by simp)
        · rw [if_neg hni] at hc
          have hni2 : int_is_not g.n n = false := by
            rwa [Bool.not_eq_true] at hni
          have hne : g.n = n := (int_is_not_eq_false hni2).1
          have ih2 := ih n g.blah hm2 hPW.2 hb2 hc
          constructor
          · intro f hf _
            rcases List.mem_cons.1 hf with rfl | hf'
            · exact hne
            · exact ih2.1 f hf' (by
                have hfb : f.blah = b := by
                  rcases List.mem_cons.1 hf with rfl | _
                  · exact heq
                  · exact ‹f.blah = b›
                rw [hfb, heq])
          · intro e he f hf hef
            rcases List.mem_cons.1 he with rfl | he' <;>
              rcases List.mem_cons.1 hf with rfl | hf'
            · rfl
            · rw [hne, ih2.1 f hf' (by rw [← hef])]
            · rw [ih2.1 e he' (by rw [hef]), hne]
            · exact ih2.2 e he' f hf' hef
      · rw [if_neg heq] at hc
        have ih2 := ih g.n g.blah hm2 hPW.2 hb2 hc
        constructor
        · intro f hf hfb
          rcases List.mem_cons.1 hf with rfl | hf'
          · exact absurd hfb heq
          · exfalso
            have h1 : strLe b f.blah = true := hb f hf
            have h2 : strLe g.blah f.blah = true := hb2 f hf'
            have h3 : strLe b g.blah = true := hb g (List.mem_cons_self g M)
            rw [hfb] at h2
            exact heq (strLe_antisymm h2 h3)
        · intro e he f hf hef
          rcases List.mem_cons.1 he with rfl | he' <;>
            rcases List.mem_cons.1 hf with rfl | hf'
          · rfl
          · exact (ih2.1 f hf' hef.symm).symm
          · exact ih2.1 e he' hef
          · exact ih2.2 e he' f hf' hef

/-- Converse: over a `blah`-sorted list of tagged entries whose counts
all lie in CPython's interned range `-5`..`256` (so that `is not` on
them is value inequality), in which any two entries sharing a `blah`
have equal counts, and where every entry whose `blah` equals the
state's `b` carries the state's `n`, the consistency check passes. -/
theorem check_pass_of (M : List FileListEntry) :
    ∀ (n : Int) (b : List Char),
    (∀ f ∈ M, f.m.isSome = true) →
    M.Pairwise entR →
    (∀ f ∈ M, -5 ≤ f.n ∧ f.n ≤ 256) →
    (∀ e ∈ M, ∀ f ∈ M, e.blah = f.blah → e.n = f.n) →
    (∀ f ∈ M, f.blah = b → f.n = n) →
    check_counts M n b = true := by
  induction M with
  | nil => intro n b _ _ _ _ _; rfl
  | cons g M ih =>
    intro n b hm hp hrange hpe hinit
    rw [check_counts_cons]
    cases hg : g.m with
    | none =>
      have h2 := hm g (List.mem_cons_self g M)
      rw [hg] at h2
      exact absurd h2 (by simp)
    | some mv =>
      dsimp only
      have hPW := List.pairwise_cons.1 hp
      have hm2 : ∀ f ∈ M, f.m.isSome = true := fun f hf => hm f (List.mem_cons_of_mem g hf)
      have hrange2 : ∀ f ∈ M, -5 ≤ f.n ∧ f.n ≤ 256 := fun f hf =>
        hrange f (List.mem_cons_of_mem g hf)
      have hpe2 : ∀ e ∈ M, ∀ f ∈ M, e.blah = f.blah → e.n = f.n := fun e he f hf =>
        hpe e (List.mem_cons_of_mem g he) f (List.mem_cons_of_mem g hf)
      have hself : ∀ f ∈ M, f.blah = g.blah → f.n = g.n := fun f hf hfb =>
        hpe f (List.mem_cons_of_mem g hf) g (List.mem_cons_self g M) hfb
      by_cases heq : g.blah = b
      · have hgn : g.n = n := hinit g (List.mem_cons_self g M) heq
        have hgr := hrange g (List.mem_cons_self g M)
        have hni : int_is_not g.n n = false := int_is_not_eq_false_of hgn hgr.1 hgr.2
        rw [if_pos heq, if_neg (by simp [hni])]
        exact ih n g.blah hm2 hPW.2 hrange2 hpe2 (fun f hf hfb => (hself f hf hfb).trans hgn)
      · rw [if_neg heq]
        exact ih g.n g.blah hm2 hPW.2 hrange2 hpe2 hself

theorem scan_dir_filter (names : List (List Char)) :
    scan_dir (names.filter isJpgName) = scan_dir names := by
  induction names with
  | nil => rfl
  | cons name rest ih =>
    by_cases h : isJpgName name
    · simp only [List.filter_cons, h, if_pos, scan_dir, ih]
    · simp only [List.filter_cons, h, Bool.false_eq_true, if_neg, scan_dir, ih,
        not_false_eq_true]

theorem pairwise_getLast {α : Type} {R : α → α → Prop} :
    ∀ {l : List α} (_ : l.Pairwise R) (x : α) (_ : x ∈ l) (hne : l ≠ []),
      x = l.getLast hne ∨ R x (l.getLast hne) := by
  intro l
  induction l with
  | nil => intro _ x hx _; exact absurd hx (List.not_mem_nil x)
  | cons a t ih =>
    intro hp x hx hne
    cases t with
    | nil =>
      rcases List.mem_cons.1 hx with rfl | hx'
      · exact Or.inl rfl
      · exact absurd hx' (List.not_mem_nil x)
    | cons b t2 =>
      have hPW := List.pairwise_cons.1 hp
      have hne2 : b :: t2 ≠ [] := List.cons_ne_nil b t2
      rw [List.getLast_cons hne2]
      rcases List.mem_cons.1 hx with rfl | hx'
      · exact Or.inr (hPW.1 _ (List.getLast_mem hne2))
      · exact ih hPW.2 x hx' hne2

theorem date_from_path_url (base m frag : List Char)
    (hm : m = str "moths_" ++ frag ++ ['/']) (hl : frag.length = 8) :
    date_from_path (url_for base m) = date_code? frag := by
  subst hm
  unfold url_for date_from_path
  rw [List.dropLast_concat]
  have hre : base ++ (str "moths_" ++ frag ++ ['/']) ++ (str "moths_" ++ frag) ++
      ('.' :: 'h' :: 't' :: 'm' :: 'l' :: []) =
      (base ++ (str "moths_" ++ frag ++ ['/']) ++ str "moths_") ++
        (frag ++ ('.' :: 'h' :: 't' :: 'm' :: 'l' :: [])) := by
    simp [List.append_assoc]
  rw [hre]
  have hlen : ((base ++ (str "moths_" ++ frag ++ ['/']) ++ str "moths_") ++
      (frag ++ ('.' :: 'h' :: 't' :: 'm' :: 'l' :: []))).length =
      (base ++ (str "moths_" ++ frag ++ ['/']) ++ str "moths_").length + 13 := by
    simp [hl]
    omega
  rw [hlen, Nat.add_sub_cancel, List.drop_left, List.take_left' hl]

/-- C7: for every fetched directory listing — given as the non-empty
list of hyperlink targets of the form `moths_DD-MM-YY/` that the regex
extracts, with `frag` naming each target's `DD-MM-YY` fragment, every
fragment parsing as a date — the latest-published-page resolver
returns the URL `<dir>/<dir>.html` for a listed directory whose
fragment parses to the maximum date. -/
theorem c7_latest_resolver (base : List Char) (ms : List (List Char))
    (frag : List Char → List Char) (hne : ms ≠ [])
    (hsh : ∀ m ∈ ms, m = str "moths_" ++ frag m ++ ['/'] ∧ (frag m).length = 8 ∧
      (date_code? (frag m)).isSome = true) :
    ∃ sel ∈ ms, url_trapping_latest base ms = some (url_for base sel) ∧
      ∀ m ∈ ms, ∀ dm ds : Nat, date_code? (frag m) = some dm →
        date_code? (frag sel) = some ds → dm ≤ ds := by
  have hLlen : (List.insertionSort pathLe (ms.map (url_for base))).length = ms.length := by
    rw [List.length_insertionSort, List.length_map]
  have hLne : List.insertionSort pathLe (ms.map (url_for base)) ≠ [] := by
    intro h0
    rw [h0] at hLlen
    exact hne (List.eq_nil_of_length_eq_zero hLlen.symm)
  have hlast : url_trapping_latest base ms =
      some ((List.insertionSort pathLe (ms.map (url_for base))).getLast hLne) := by
    unfold url_trapping_latest
    exact List.getLast?_eq_getLast _ hLne
  have hmem : (List.insertionSort pathLe (ms.map (url_for base))).getLast hLne ∈
      ms.map (url_for base) := by
    have h1 := List.getLast_mem hLne
    exact (List.mem_insertionSort pathLe).1 h1
  obtain ⟨sel, hsel, hurl⟩ := List.mem_map.1 hmem
  refine ⟨sel, hsel, by rw [hlast, hurl], ?_⟩
  intro m hm dm ds hdm hds
  have hmmem : url_for base m ∈ List.insertionSort pathLe (ms.map (url_for base)) := by
    rw [List.mem_insertionSort]
    exact List.mem_map_of_mem _ hm
  have hpw : (List.insertionSort pathLe (ms.map (url_for base))).Pairwise pathLe :=
    List.sorted_insertionSort pathLe _
  have hkm : pathKey (url_for base m) = dm := by
    unfold pathKey
    rw [date_from_path_url base m (frag m) (hsh m hm).1 (hsh m hm).2.1, hdm]
    rfl
  have hks : pathKey (url_for base sel) = ds := by
    unfold pathKey
    rw [date_from_path_url base sel (frag sel) (hsh sel hsel).1 (hsh sel hsel).2.1, hds]
    rfl
  rcases pairwise_getLast hpw _ hmmem hLne with heq | hle
  · rw [← hkm, heq, ← hurl, hks]
  · have h2 : pathKey (url_for base m) ≤
        pathKey ((List.insertionSort pathLe (ms.map (url_for base))).getLast hLne) := hle
    rw [← hurl] at h2
    rw [← hkm, ← hks]
    exact h2

theorem effective_counts_length (l : List FileListEntry) :
    ∀ bp, (effective_counts l bp).length = l.length := by
  induction l with
  | nil => intro bp; rfl
  | cons f rest ih =>
    intro bp
    simp [effective_counts, ih]

theorem scan_dir_length (names : List (List Char)) (h : (scan_dir names).2 = 0) :
    (scan_dir names).1.length = (names.filter isJpgName).length := by
  induction names with
  | nil => rfl
  | cons name rest ih =>
    rw [List.filter_cons]
    by_cases hj : isJpgName name
    · cases hp : parse_jpg_name name with
      | some e =>
        have hs : scan_dir (name :: rest) = (e :: (scan_dir rest).1, (scan_dir rest).2) := by
          simp [scan_dir, hj, hp]
        rw [hs] at h ⊢
        simpa [hj] using ih h
      | none =>
        have hs : scan_dir (name :: rest) = ((scan_dir rest).1, (scan_dir rest).2 + 1) := by
          simp [scan_dir, hj, hp]
        rw [hs] at h
        simp at h
    · have hs : scan_dir (name :: rest) = scan_dir rest := by
        simp [scan_dir, hj]
      rw [hs] at h ⊢
      simpa [hj] using ih h

theorem ensure_trapping_of_none (db : DB) (d : Nat)
    (h : trapping_find db.trappings d = none) :
    ensure_trapping db d =
      (⟨db.trappings ++ [(db.next_trapping_id, d)], db.next_trapping_id + 1,
        db.instances⟩, db.next_trapping_id) := by
  unfold ensure_trapping
  rw [h]

theorem run_import_eq (db : DB) (date : Nat) (names : List (List Char)) :
    run_import db date names =
      match import_entries? names with
      | none => db
      | some sorted =>
        add_instance_list (ensure_trapping db date).1 (ensure_trapping db date).2
          sorted := rfl

theorem import_entries?_eq (names : List (List Char))
    (hfe : (scan_dir names).2 = 0) (hne : (scan_dir names).1 ≠ []) :
    import_entries? names =
      if check_counts (sort_entries (scan_dir names).1) (-1) [] then
        some (sort_entries (scan_dir names).1)
      else none := by
  show (if (scan_dir names).2 ≠ 0 then none
    else if (scan_dir names).1.isEmpty then none
    else if check_counts (sort_entries (scan_dir names).1) (-1) [] then
      some (sort_entries (scan_dir names).1)
    else none) = _
  rw [if_neg (fun hh => hh hfe), if_neg (by simp [List.isEmpty_iff, hne])]

theorem lit_self_append : ∀ (p r : List Char), lit p (p ++ r) = some r := by
  intro p
  induction p with
  | nil => intro r; rfl
  | cons a ps ih =>
    intro r
    simp [lit, ih]

theorem takeWhile_append_stop (p : Char → Bool) :
    ∀ (x : List Char) (d : Char) (r : List Char),
    (∀ c ∈ x, p c = true) → p d = false →
    (x ++ d :: r).takeWhile p = x ∧ (x ++ d :: r).dropWhile p = d :: r := by
  intro x
  induction x with
  | nil =>
    intro d r _ hd
    simp [List.takeWhile_cons, List.dropWhile_cons, hd]
  | cons a xs ih =>
    intro d r hx hd
    have ha : p a = true := hx a (List.mem_cons_self a xs)
    have h2 := ih d r (fun c hc => hx c (List.mem_cons_of_mem a hc)) hd
    simp [List.takeWhile_cons, List.dropWhile_cons, ha, h2.1, h2.2]

/-- Partial evaluation of `matchNav` after its concrete 21-character
prefix `<i> Back to <a href="` (with one space in each `\s` position
and nothing in the optional ones) has been consumed. -/
theorem matchNav_pre (X : List Char) :
    matchNav (str "<i> Back to <a href=\"" ++ X) =
      (if (X.takeWhile (fun c => c ≠ '"')).isEmpty then none
       else
         match lit (str "\"") (X.dropWhile (fun c => c ≠ '"')) with
         | none => none
         | some s9 =>
           match lit (str ">") (s9.dropWhile pyIsWs) with
           | none => none
           | some s11 =>
             if (s11.takeWhile (fun c => c ≠ '<')).isEmpty then none
             else
               match lit (str "</a> moth page") (s11.dropWhile (fun c => c ≠ '<')) with
               | none => none
               | some rest =>
                 some (str "<i>" ++ [' '],
                       str "ack to <a" ++ [' '] ++ str "href=" ++ [] ++
                         '"' :: X.takeWhile (fun c => c ≠ '"') ++
                         '"' :: s9.takeWhile pyIsWs ++
                         '>' :: s11.takeWhile (fun c => c ≠ '<') ++ str "</a> moth page",
                       rest)) := rfl

/-- The pattern matches the claim's back fragment at its head, with
the capture groups and remainder the substitution needs. -/
theorem matchNav_back (x y post : List Char)
    (hx : x ≠ []) (hxq : ∀ c ∈ x, decide (c ≠ '"') = true)
    (hy : y ≠ []) (hyl : ∀ c ∈ y, decide (c ≠ '<') = true) :
    matchNav (back_fragment x y ++ post) =
      some (str "<i> ",
            str "ack to <a href=\"" ++ x ++ str "\">" ++ y ++ str "</a> moth page",
            post) := by
  have hnorm : back_fragment x y ++ post =
      str "<i> Back to <a href=\"" ++
        (x ++ '"' :: ('>' :: (y ++ '<' :: (str "/a> moth page" ++ post)))) := by
    unfold back_fragment
    simp only [List.append_assoc]
    rfl
  rw [hnorm, matchNav_pre]
  have htX := takeWhile_append_stop (fun c => decide (c ≠ '"')) x '"'
    ('>' :: (y ++ '<' :: (str "/a> moth page" ++ post))) hxq (by decide)
  rw [htX.1, htX.2, if_neg (by simp [List.isEmpty_iff, hx])]
  rw [show ('"' : Char) :: ('>' :: (y ++ '<' :: (str "/a> moth page" ++ post))) =
    str "\"" ++ ('>' :: (y ++ '<' :: (str "/a> moth page" ++ post))) from rfl]
  rw [lit_self_append]
  dsimp only
  have e9d : (('>' :: (y ++ '<' :: (str "/a> moth page" ++ post))).dropWhile pyIsWs) =
      '>' :: (y ++ '<' :: (str "/a> moth page" ++ post)) := by
    rw [List.dropWhile_cons, if_neg (by decide)]
  have e9t : (('>' :: (y ++ '<' :: (str "/a> moth page" ++ post))).takeWhile pyIsWs) = [] := by
    rw [List.takeWhile_cons, if_neg (by decide)]
  rw [e9d, e9t]
  rw [show ('>' : Char) :: (y ++ '<' :: (str "/a> moth page" ++ post)) =
    str ">" ++ (y ++ '<' :: (str "/a> moth page" ++ post)) from rfl]
  rw [lit_self_append]
  dsimp only
  have htY := takeWhile_append_stop (fun c => decide (c ≠ '<')) y '<'
    (str "/a> moth page" ++ post) hyl (by decide)
  rw [htY.1, htY.2, if_neg (by simp [List.isEmpty_iff, hy])]
  rw [show ('<' : Char) :: (str "/a> moth page" ++ post) =
    str "</a> moth page" ++ post from rfl]
  rw [lit_self_append]
  dsimp only
  simp only [List.append_assoc, List.cons_append, List.nil_append]
  rfl

theorem subNav_nil (fwd : List Char) : subNav fwd [] = [] := rfl

theorem subNav_cons (fwd : List Char) (c : Char) (cs : List Char) :
    subNav fwd (c :: cs) =
      match matchNav (c :: cs) with
      | some r => r.1 ++ fwd ++ r.2.1 ++ r.2.2
      | none => c :: subNav fwd cs := rfl

/-- `re.sub(..., count=1)` on a text whose leftmost pattern match
starts right after `pre`: everything before the match and everything
after it is kept byte-identical, and exactly the one match is
replaced. -/
theorem subNav_patch (fwd : List Char) : ∀ (pre mid post g1 g2 : List Char),
    (∀ i, i < pre.length → matchNav (pre.drop i ++ (mid ++ post)) = none) →
    matchNav (mid ++ post) = some (g1, g2, post) →
    subNav fwd (pre ++ (mid ++ post)) = pre ++ (g1 ++ fwd ++ g2 ++ post) := by
  intro pre
  induction pre with
  | nil =>
    intro mid post g1 g2 _ hmid
    rw [List.nil_append, List.nil_append]
    cases hmp : mid ++ post with
    | nil =>
      rw [hmp] at hmid
      exact Option.noConfusion hmid
    | cons c cs =>
      rw [hmp] at hmid
      rw [subNav_cons, hmid]
  | cons c pre ih =>
    intro mid post g1 g2 hpre hmid
    rw [List.cons_append, subNav_cons]
    have h0 := hpre 0 (Nat.succ_pos pre.length)
    rw [List.drop_zero, List.cons_append] at h0
    rw [h0]
    dsimp only
    rw [ih mid post g1 g2 (fun i hi => by
      have h1 := hpre (i + 1) (by simp only [List.length_cons]; omega)
      rwa [List.drop_succ_cons] at h1) hmid]
    rw [List.cons_append]

/-! ## Claims -/

/-- C1, counterexample: for the date directory holding exactly
`IMG_1.jpg, IMG_3.jpg, IMG_5_1.jpg, IMG_5_1_a.jpg, IMG_5_1_b.jpg`
(listed in that, alphabetical, order), the import succeeds but the
effective counts written to the instance table are not
`1, 3, 1, 0, 0`: `IMG_1.jpg` and `IMG_3.jpg` share the groupKey `IMG`,
so `IMG_3.jpg` is a subsequent entry of that group and its count is
written as `0`. -/
theorem c1_counterexample :
    (run_import emptyDB 20250615
        ([str "IMG_1.jpg", str "IMG_3.jpg", str "IMG_5_1.jpg",
          str "IMG_5_1_a.jpg", str "IMG_5_1_b.jpg"])).instances.map Prod.snd ≠
      [1, 3, 1, 0, 0] := by
  decide

/-- C1, amended: for that directory the import succeeds, writing
effective counts `1, 0, 1, 0, 0` respectively (the parsed `n` for the
first entry of each groupKey in sorted order — `IMG_1.jpg` and
`IMG_3.jpg` share the groupKey `IMG` — and `0` for every subsequent
entry sharing that groupKey), resulting in 5 instance rows and one
trapping row. -/
theorem c1_amended :
    (run_import emptyDB 20250615
        ([str "IMG_1.jpg", str "IMG_3.jpg", str "IMG_5_1.jpg",
          str "IMG_5_1_a.jpg", str "IMG_5_1_b.jpg"])) =
      ⟨[(0, 20250615)], 1, [(0, 1), (0, 0), (0, 1), (0, 0), (0, 0)]⟩ := by
  decide

/-- C2, counterexample: in the directory `A_5.jpg, A_7_a.jpg` every
`.jpg` parses, the two parsed entries share the groupKey `A` and carry
different counts (5 and 7), yet the import does not abort: it writes a
trapping row and two instance rows (with counts 5 and 0).  The source's
consistency check skips entries that carry no variant tag, so `A_5.jpg`
is never compared against `A_7_a.jpg`. -/
theorem c2_counterexample :
    (scan_dir [str "A_5.jpg", str "A_7_a.jpg"]).2 = 0 ∧
    (∃ e ∈ (scan_dir [str "A_5.jpg", str "A_7_a.jpg"]).1,
      ∃ f ∈ (scan_dir [str "A_5.jpg", str "A_7_a.jpg"]).1,
        e.blah = f.blah ∧ e.n ≠ f.n) ∧
    run_import emptyDB 20250615 [str "A_5.jpg", str "A_7_a.jpg"] =
      ⟨[(0, 20250615)], 1, [(0, 5), (0, 0)]⟩ := by
  refine ⟨by decide, ⟨⟨5, none, ['A']⟩, by decide, ⟨7, some 'a', ['A']⟩, by decide,
    by decide, by decide⟩, by decide⟩

/-- C2, amended: for every date directory containing at least one
`.jpg` file in which every `.jpg` filename parses successfully: if any
two parsed entries that both carry variant tags share the same
groupKey but carry different counts `n`, the import of that directory
aborts with no trapping row and no instance rows written; otherwise —
every pair of variant-tagged entries sharing a groupKey carries equal
`n`, every variant-tagged entry's count lies in CPython's interned
small-int range `-5`..`256`, and no variant-tagged entry has an empty
groupKey — validation passes and exactly one trapping row plus one
instance row per file is written.  (Entries without a variant tag are
never examined by the check; the source compares counts with `is not`,
object identity, so equal counts outside the interned range still
abort; and a variant-tagged entry with an empty groupKey is compared
against the loop's initial state.) -/
theorem c2_group_count_validation (db : DB) (date : Nat) (names : List (List Char))
    (hfe : (scan_dir names).2 = 0) (hne : (scan_dir names).1 ≠ []) :
    ((∃ e ∈ (scan_dir names).1, ∃ f ∈ (scan_dir names).1,
        e.m.isSome = true ∧ f.m.isSome = true ∧ e.blah = f.blah ∧ e.n ≠ f.n) →
      run_import db date names = db) ∧
    ((∀ e ∈ (scan_dir names).1, ∀ f ∈ (scan_dir names).1,
        e.m.isSome = true → f.m.isSome = true → e.blah = f.blah → e.n = f.n) →
     (∀ e ∈ (scan_dir names).1, e.m.isSome = true → -5 ≤ e.n ∧ e.n ≤ 256) →
     (∀ e ∈ (scan_dir names).1, e.m.isSome = true → e.blah ≠ []) →
     trapping_find db.trappings date = none →
     ∃ rows : List (Nat × Int),
       run_import db date names =
         ⟨db.trappings ++ [(db.next_trapping_id, date)], db.next_trapping_id + 1,
          db.instances ++ rows⟩ ∧
       rows.length = (names.filter isJpgName).length) := by
  have hmemS : ∀ e : FileListEntry,
      e ∈ sort_entries (scan_dir names).1 ↔ e ∈ (scan_dir names).1 := by
    intro e
    unfold sort_entries
    exact List.mem_insertionSort entR
  have hmemM : ∀ e : FileListEntry,
      e ∈ (sort_entries (scan_dir names).1).filter (fun f => f.m.isSome) ↔
        e ∈ (scan_dir names).1 ∧ e.m.isSome = true := by
    intro e
    rw [List.mem_filter, hmemS]
  have hMm : ∀ f ∈ (sort_entries (scan_dir names).1).filter (fun f => f.m.isSome),
      f.m.isSome = true := fun f hf => ((hmemM f).1 hf).2
  have hsorted : (sort_entries (scan_dir names).1).Pairwise entR :=
    List.sorted_insertionSort entR (scan_dir names).1
  have hMp : ((sort_entries (scan_dir names).1).filter (fun f => f.m.isSome)).Pairwise entR :=
    hsorted.sublist (List.filter_sublist _)
  have hMb : ∀ f ∈ (sort_entries (scan_dir names).1).filter (fun f => f.m.isSome),
      strLe [] f.blah = true := fun f _ => rfl
  constructor
  · rintro ⟨e, he, f, hf, hem, hfm, hbl, hnn⟩
    have hcf : check_counts (sort_entries (scan_dir names).1) (-1) [] = false := by
      by_contra hcc
      rw [Bool.not_eq_false] at hcc
      rw [check_counts_filter] at hcc
      have hmono := check_pass_mono _ (-1) [] hMm hMp hMb hcc
      exact hnn (hmono.2 e ((hmemM e).2 ⟨he, hem⟩) f ((hmemM f).2 ⟨hf, hfm⟩) hbl)
    rw [run_import_eq, import_entries?_eq names hfe hne, if_neg (by simp [hcf])]
  · intro hcons hrange hblah hfind
    have hct : check_counts (sort_entries (scan_dir names).1) (-1) [] = true := by
      rw [check_counts_filter]
      refine check_pass_of _ (-1) [] hMm hMp ?_ ?_ ?_
      · intro f hf
        exact hrange f ((hmemM f).1 hf).1 (hMm f hf)
      · intro e he f hf hef
        exact hcons e ((hmemM e).1 he).1 f ((hmemM f).1 hf).1 (hMm e he) (hMm f hf) hef
      · intro f hf hfb
        exact absurd hfb (hblah f ((hmemM f).1 hf).1 (hMm f hf))
    rw [run_import_eq, import_entries?_eq names hfe hne, if_pos (by simp [hct])]
    dsimp only
    rw [ensure_trapping_of_none db date hfind]
    refine ⟨(effective_counts (sort_entries (scan_dir names).1) []).map
        (fun c => (db.next_trapping_id, c)), rfl, ?_⟩
    rw [List.length_map, effective_counts_length]
    unfold sort_entries
    rw [List.length_insertionSort]
    exact scan_dir_length names hfe

theorem c2_group_count_validation_witness :
    ∃ rows : List (Nat × Int),
      run_import emptyDB 20250615 [str "a_2.jpg", str "b_3_a.jpg"] =
        ⟨[(0, 20250615)], 1, rows⟩ ∧
      rows.length = ([str "a_2.jpg", str "b_3_a.jpg"].filter isJpgName).length := by
  have h := (c2_group_count_validation emptyDB 20250615 [str "a_2.jpg", str "b_3_a.jpg"]
    (by decide) (by decide)).2 (by decide) (by decide) (by decide) (by decide)
  obtain ⟨rows, h1, h2⟩ := h
  exact ⟨rows, h1, h2⟩

/-- C3: for every filename of the form `prefix_n.jpg` — any non-empty
prefix, `n` any token Python's `int()` accepts (in particular any
base-10 integer) — parsing succeeds with count `n`, groupKey `prefix`
and no variant tag; and for every `prefix_n_m.jpg` with `m` a single
alphabetic character, parsing succeeds with count `n`, groupKey
`prefix` and variant tag `m` lower-cased.  Both names pass the `.jpg`
extension check. -/
theorem c3_filename_grammar (pfx t : List Char) (k : Int) (c : Char)
    (hp : pfx ≠ []) (ht : pyInt? t = some k) (hc : c.isAlpha = true) :
    (parse_jpg_name (pfx ++ '_' :: (t ++ str ".jpg")) = some ⟨k, none, pfx⟩ ∧
      isJpgName (pfx ++ '_' :: (t ++ str ".jpg")) = true) ∧
    (parse_jpg_name (pfx ++ '_' :: (t ++ '_' :: c :: str ".jpg")) =
        some ⟨k, some c.toLower, pfx⟩ ∧
      isJpgName (pfx ++ '_' :: (t ++ '_' :: c :: str ".jpg")) = true) := by
  refine ⟨⟨parse_plain pfx t k ht, ?_⟩, ⟨parse_variant pfx t k c ht hc, ?_⟩⟩
  · have hns : pfx ++ '_' :: (t ++ str ".jpg") = (pfx ++ '_' :: t) ++ str ".jpg" := by
      simp
    rw [hns]
    exact isJpgName_append _
  · have hns : pfx ++ '_' :: (t ++ '_' :: c :: str ".jpg") =
        (pfx ++ '_' :: (t ++ '_' :: [c])) ++ str ".jpg" := by
      simp
    rw [hns]
    exact isJpgName_append _

theorem c3_filename_grammar_witness :
    (parse_jpg_name (str "IMG" ++ '_' :: (str "7" ++ str ".jpg")) =
        some ⟨7, none, str "IMG"⟩ ∧
      isJpgName (str "IMG" ++ '_' :: (str "7" ++ str ".jpg")) = true) ∧
    (parse_jpg_name (str "IMG" ++ '_' :: (str "7" ++ '_' :: 'A' :: str ".jpg")) =
        some ⟨7, some 'a', str "IMG"⟩ ∧
      isJpgName (str "IMG" ++ '_' :: (str "7" ++ '_' :: 'A' :: str ".jpg")) = true) :=
  c3_filename_grammar (str "IMG") (str "7") 7 'A' (by decide) (by decide) (by decide)

/-- C4: evaluating the publication loop at a run with two new
trappings (2025-06-01 and 2025-06-02, the last published page being
2025-05-30) shows the divergence: the database hands the trappings to
`trappings_publish` newest first (`ORDER BY date DESC`), so the page
for 2025-06-02 is created first with its back link pointing at the
2025-05-30 page, the 2025-06-01 page's back link points at the
2025-06-02 page, and the forward patches run 2025-05-30 → 2025-06-02 →
2025-06-01 — not the chronological chain the claim describes
(back links 2025-06-01 → 2025-05-30 and 2025-06-02 → 2025-06-01,
forward patches 2025-05-30 → 2025-06-01 and 2025-06-01 → 2025-06-02). -/
theorem c4_divergence :
    publish_chain 20250530 (trappings_after [20250601, 20250602] 20250530) =
      ([(20250602, 20250530), (20250601, 20250602)],
       [(20250530, 20250602), (20250602, 20250601)]) ∧
    publish_chain 20250530 (trappings_after [20250601, 20250602] 20250530) ≠
      ([(20250601, 20250530), (20250602, 20250601)],
       [(20250530, 20250601), (20250601, 20250602)]) := by
  constructor
  · decide
  · decide

/-- C5: if a maximum image file size of `N` bytes is configured
(`0` meaning unlimited) and any file of the directory has size
exceeding `N` — in particular a file of size `N + 1` — the importer
aborts the whole directory before any database write: the database is
returned untouched, with zero trapping and zero instance rows added,
regardless of the other files present. -/
theorem c5_oversize_aborts (max_size : Nat) (db : DB) (date : Nat)
    (files : List (List Char × Nat)) (f : List Char × Nat)
    (hN : max_size ≠ 0) (hf : f ∈ files) (hsz : max_size < f.2) :
    run_import_limited max_size db date files = db := by
  unfold run_import_limited
  rw [if_pos]
  exact ⟨hN, List.any_eq_true.2 ⟨f, hf, by simpa using hsz⟩⟩

theorem c5_oversize_aborts_witness :
    run_import_limited 100 emptyDB 20250615
      [(str "A_5.jpg", 101), (str "B_1.jpg", 5)] = emptyDB :=
  c5_oversize_aborts 100 emptyDB 20250615 _ (str "A_5.jpg", 101)
    (by decide) (by simp) (by decide)

/-- C6: running the importer a second time over the same date
directory is a no-op on the trapping table (the upsert-by-date finds
the existing row and inserts nothing, and does not fail) while the
second run appends to the instance table exactly the rows the first
run added (duplicating them). -/
theorem c6_second_run (db : DB) (date : Nat) (names : List (List Char)) :
    (run_import (run_import db date names) date names).trappings =
      (run_import db date names).trappings ∧
    (run_import (run_import db date names) date names).instances =
      (run_import db date names).instances ++
        ((run_import db date names).instances.drop db.instances.length) := by
  unfold run_import
  cases h : import_entries? names with
  | none => simp
  | some sorted =>
    cases he : ensure_trapping db date with
    | mk dbe tid =>
      have hfind : trapping_find dbe.trappings date = some tid := by
        have h2 := ensure_trapping_find db date
        rw [he] at h2
        exact h2
      have hinst : dbe.instances = db.instances := by
        have h2 := ensure_trapping_instances db date
        rw [he] at h2
        exact h2
      have hfind2 :
          trapping_find (add_instance_list dbe tid sorted).trappings date = some tid := hfind
      simp only [ensure_trapping_of_find _ _ _ hfind2]
      refine ⟨rfl, ?_⟩
      show (add_instance_list (add_instance_list dbe tid sorted) tid sorted).instances = _
      simp only [add_instance_list, hinst, List.append_assoc]
      rw [List.drop_left]

/-- C9, counterexample: the filename parser accepts `x_-1.jpg`
(Python's `int()` accepts a sign), extracting the negative count
`n = -1`. -/
theorem c9_counterexample :
    parse_jpg_name (str "x_-1.jpg") = some ⟨-1, none, ['x']⟩ ∧ (-1 : Int) < 0 := by
  decide

theorem c7_latest_resolver_witness :
    (∃ sel ∈ [str "moths_01-06-25/", str "moths_15-03-24/", str "moths_09-12-24/"],
      url_trapping_latest (str "https://w/")
          [str "moths_01-06-25/", str "moths_15-03-24/", str "moths_09-12-24/"] =
        some (url_for (str "https://w/") sel) ∧
      ∀ m ∈ [str "moths_01-06-25/", str "moths_15-03-24/", str "moths_09-12-24/"],
        ∀ dm ds : Nat, date_code? (((m.drop 6).take 8)) = some dm →
          date_code? (((sel.drop 6).take 8)) = some ds → dm ≤ ds) ∧
    url_trapping_latest (str "https://w/")
        [str "moths_01-06-25/", str "moths_15-03-24/", str "moths_09-12-24/"] =
      some (str "https://w/moths_01-06-25/moths_01-06-25.html") :=
  ⟨c7_latest_resolver (str "https://w/")
      [str "moths_01-06-25/", str "moths_15-03-24/", str "moths_09-12-24/"]
      (fun m => (m.drop 6).take 8) (by decide) (by decide),
   by decide⟩

/-- C8: applying the navigation patch for one new page (directory/file
name `name`, long date `date_long`) to a previously published page
whose content is `pre` followed by the fragment
`<i> Back to <a href="x">Y</a> moth page` followed by `post` — with
`x` nonempty and quote-free, `Y` nonempty and `<`-free, and no earlier
pattern match inside `pre` — performs exactly one substitution: the
fragment becomes `<i> Forward to <a href="../name/name.html">date_long</a>
moth page, back to <a href="x">Y</a> moth page`, and every other byte
(`pre` and `post`) is unchanged. -/
theorem c8_nav_patch (pre x y post name date_long : List Char)
    (hx : x ≠ []) (hxq : ∀ c ∈ x, decide (c ≠ '"') = true)
    (hy : y ≠ []) (hyl : ∀ c ∈ y, decide (c ≠ '<') = true)
    (hpre : ∀ i, i < pre.length →
      matchNav (pre.drop i ++ (back_fragment x y ++ post)) = none) :
    subNav (forward_to name date_long) (pre ++ (back_fragment x y ++ post)) =
      pre ++ (patched_fragment name date_long x y ++ post) := by
  rw [subNav_patch (forward_to name date_long) pre (back_fragment x y) post _ _
    hpre (matchNav_back x y post hx hxq hy hyl)]
  have hfrag : str "<i> " ++ forward_to name date_long ++
      (str "ack to <a href=\"" ++ x ++ str "\">" ++ y ++ str "</a> moth page") ++ post =
      patched_fragment name date_long x y ++ post := by
    unfold forward_to patched_fragment
    simp only [List.append_assoc]
    rfl
  rw [← hfrag]

theorem c8_nav_patch_witness :
    subNav (forward_to (str "moths_02-05-25") (str "2 May 2025"))
        (str "<p>hello</p>" ++
          (back_fragment (str "x.html") (str "1 May 2025") ++ str "</i>")) =
      str "<p>hello</p>" ++
        (patched_fragment (str "moths_02-05-25") (str "2 May 2025")
          (str "x.html") (str "1 May 2025") ++ str "</i>") :=
  c8_nav_patch (str "<p>hello</p>") (str "x.html") (str "1 May 2025") (str "</i>")
    (str "moths_02-05-25") (str "2 May 2025")
    (by decide) (by decide) (by decide) (by decide) (by decide)

/-- C9, amended: for every filename accepted by the filename parser
that contains no `'-'` character, the extracted count `n` is
non-negative.  (Python's `int()` accepts a sign, so a filename such as
`x_-1.jpg` is accepted with a negative count; absent a minus sign the
count token is an unsigned decimal and the count is `≥ 0`.) -/
theorem c9_amended_nonneg (name : List Char) (e : FileListEntry)
    (h : parse_jpg_name name = some e) (hn : ('-') ∉ name) : 0 ≤ e.n := by
  rw [parse_jpg_name_eq] at h
  cases hs : scan_tokens (pySplit '_' (pyTake name (-4))).reverse none
      (((pyTake name (-4)).length : Int)) with
  | none =>
    rw [hs] at h
    exact Option.noConfusion h
  | some r =>
    obtain ⟨k, m, lp⟩ := r
    rw [hs] at h
    dsimp only at h
    obtain ⟨t, htm, hti⟩ := scan_tokens_src hs
    have hnt : ('-') ∉ t := fun hm =>
      hn (pyTake_subset name (-4) _ (pySplit_subset (List.mem_reverse.1 htm) _ hm))
    have hk := pyInt?_nonneg hti hnt
    injection h with h2
    rw [← h2]
    exact hk

theorem c9_amended_nonneg_witness :
    parse_jpg_name (str "a_2.jpg") = some ⟨2, none, ['a']⟩ ∧
      0 ≤ (FileListEntry.mk 2 none ['a']).n :=
  ⟨by decide, c9_amended_nonneg (str "a_2.jpg") ⟨2, none, ['a']⟩ (by decide) (by decide)⟩

/-- C10: files whose name does not end in `.jpg` (case-insensitively)
are ignored entirely by the import: the directory scan returns the
same parsed entries and the same malformed-file count as the scan of
the listing restricted to its `.jpg` names, and the import outcome on
the database is identical.  So such files are never parsed, are not
counted as malformed, and cannot cause the directory to be rejected. -/
theorem c10_non_jpg_ignored (db : DB) (date : Nat) (names : List (List Char)) :
    scan_dir (names.filter isJpgName) = scan_dir names ∧
    run_import db date (names.filter isJpgName) = run_import db date names := by
  refine ⟨scan_dir_filter names, ?_⟩
  unfold run_import import_entries?
  rw [scan_dir_filter]

end Moths
